import Mathlib

/-!
# Proto-Comp caption/inventory reconciliation — verification development

A shallow embedding of the reconciliation logic of the Proto-Comp repository
(`analyze_pcn_captions.py`, `quick_caption_summary.py`), together with proofs of
the behavioural properties stated in its specification.

Python dicts are modelled as association lists (`List (String × α)`) in
insertion order, with `upsert` playing the role of `d[k] = v` (update in place
when the key is present, append otherwise) and `lookup?` playing the role of
`d[k]` / `k in d`.  Python sets are modelled as duplicate-free lists in
insertion order (`addSet` is `s.add(x)`).  The filesystem seen by the scanner
is modelled as a function from split name to the optional listing of the
`root/<split>/complete` directory (`none` = the subtree does not exist).  A
caption source that cannot be opened or decoded is modelled as `none`
(the `except` branch of `load_caption_data`).  A row of the CSV source is a
`List String` of its fields; a row has at least two fields exactly when it has
the shape `a :: b :: _`.
-/

namespace ProtoComp

/-- Keys of an association list, in order (Python `dict` key order). -/
def keys {α : Type} (m : List (String × α)) : List String := m.map Prod.fst

@[simp] theorem keys_nil {α : Type} : keys ([] : List (String × α)) = [] := rfl

@[simp] theorem keys_cons {α : Type} (e : String × α) (m : List (String × α)) :
    keys (e :: m) = e.1 :: keys m := rfl

@[simp] theorem keys_append {α : Type} (m₁ m₂ : List (String × α)) :
    keys (m₁ ++ m₂) = keys m₁ ++ keys m₂ := by
  simp [keys]

/-- First-occurrence lookup, i.e. Python `d[k]` on a duplicate-free dict. -/
def lookup? {α : Type} : List (String × α) → String → Option α
  | [], _ => none
  | e :: rest, k => if k = e.1 then some e.2 else lookup? rest k

/-- Lookup with a default value. -/
def lookupD {α : Type} (m : List (String × α)) (k : String) (d : α) : α :=
  (lookup? m k).getD d

/-- Boolean key-membership test, i.e. Python `k in d`. -/
def memKeys {α : Type} (m : List (String × α)) (k : String) : Bool :=
  decide (k ∈ keys m)

@[simp] theorem memKeys_iff {α : Type} (m : List (String × α)) (k : String) :
    memKeys m k = true ↔ k ∈ keys m := by
  simp [memKeys]

/-- Python dict assignment `d[k] = v`: replace the value at the first
occurrence of `k`, keeping its position, or append a fresh entry. -/
def upsert {α : Type} : List (String × α) → String → α → List (String × α)
  | [], k, v => [(k, v)]
  | e :: rest, k, v => if k = e.1 then (k, v) :: rest else e :: upsert rest k v

/-- Python `set.add`: insertion-ordered duplicate-free list. -/
def addSet (s : List String) (x : String) : List String :=
  if x ∈ s then s else s ++ [x]

@[simp] theorem lookup_upsert {α : Type} (m : List (String × α)) (k : String)
    (v : α) (k' : String) :
    lookup? (upsert m k v) k' = if k' = k then some v else lookup? m k' := by
  induction m with
  | nil => by_cases h : k' = k <;> simp [upsert, lookup?, h]
  | cons e rest ih =>
    obtain ⟨a, b⟩ := e
    by_cases hk : k = a
    · subst hk
      by_cases h : k' = k <;> simp [upsert, lookup?, h]
    · by_cases h : k' = a
      · have hne : ¬ k' = k := fun hc => hk (hc ▸ h)
        have ha : ¬ a = k := fun hc => hk hc.symm
        simp [upsert, lookup?, hk, h, hne, ha]
      · simp [upsert, lookup?, hk, h, ih]

theorem keys_upsert_of_mem {α : Type} (m : List (String × α)) (k : String)
    (v : α) (h : k ∈ keys m) : keys (upsert m k v) = keys m := by
  induction m with
  | nil => simp at h
  | cons e rest ih =>
    obtain ⟨a, b⟩ := e
    by_cases hk : k = a
    · simp [upsert, hk]
    · have hmem : k ∈ keys rest := by
        rcases List.mem_cons.mp (by simpa using h) with h1 | h1
        · exact absurd h1 hk
        · exact h1
      simp [upsert, hk, ih hmem]

theorem upsert_of_not_mem {α : Type} (m : List (String × α)) (k : String)
    (v : α) (h : k ∉ keys m) : upsert m k v = m ++ [(k, v)] := by
  induction m with
  | nil => simp [upsert]
  | cons e rest ih =>
    have h1 : ¬ k = e.1 := by
      intro hc; exact h (by simp [hc])
    have h2 : k ∉ keys rest := by
      intro hc; exact h (by simp [hc])
    simp [upsert, h1, ih h2]

@[simp] theorem mem_addSet (s : List String) (x y : String) :
    y ∈ addSet s x ↔ y ∈ s ∨ y = x := by
  unfold addSet
  by_cases h : x ∈ s
  · simp only [if_pos h, List.mem_append]
    constructor
    · exact Or.inl
    · rintro (hy | hy)
      · exact hy
      · exact hy ▸ h
  · simp [if_neg h]

/-! ## Caption Loader (`load_caption_data` in `analyze_pcn_captions.py`) -/

/-- `instance_id.split('_')[0]`: the prefix of the identifier before its first
underscore (the whole identifier when it has no underscore).  Total: derivation
never fails. -/
def classOf (s : String) : String :=
  String.mk (s.data.takeWhile (fun c => c ≠ '_'))

/-- One iteration of the CSV row loop of `load_caption_data`: rows with fewer
than two fields are skipped; otherwise both fields are stripped, the caption is
stored under the identifier, and the derived class id is added to the set. -/
def loadRow (acc : List (String × String) × List String) :
    List String → List (String × String) × List String
  | a :: b :: _ =>
    (upsert acc.1 a.trim b.trim, addSet acc.2 (classOf a.trim))
  | _ => acc

/-- `load_caption_data`: the source is `some rows` when the file can be opened
and decoded, `none` otherwise; on failure the `except` branch returns an empty
dict and an empty set. -/
def load_caption_data (src : Option (List (List String))) :
    List (String × String) × List String :=
  match src with
  | none => ([], [])
  | some rows => rows.foldl loadRow ([], [])

/-- The caption-loading loop of `quick_summary` (`quick_caption_summary.py`):
same row handling, captions dict only. -/
def quickLoadCaptions (rows : List (List String)) : List (String × String) :=
  rows.foldl
    (fun m row =>
      match row with
      | a :: b :: _ => upsert m a.trim b.trim
      | _ => m) []

/-- The `if not captions or not pcn_instances` guard of `main`: Python dict
truthiness, so the run is aborted exactly when one of the two dicts is empty. -/
def mainAbortsOnLoad (captions : List (String × String))
    (pcn_instances : List (String × List (String × List String))) : Bool :=
  captions.isEmpty || pcn_instances.isEmpty

/-- The value the loader ends up storing for key `k`: that of the last
well-formed row whose stripped first field is `k` (specification-side
characterisation of last-write-wins). -/
def lastWrite : List (List String) → String → Option String
  | [], _ => none
  | row :: rest, k =>
    match lastWrite rest k with
    | some v => some v
    | none =>
      match row with
      | a :: b :: _ => if a.trim = k then some b.trim else none
      | _ => none

theorem load_lookup_eq_lastWrite (rows : List (List String))
    (acc : List (String × String) × List String) (k : String) :
    lookup? (rows.foldl loadRow acc).1 k
      = match lastWrite rows k with
        | some v => some v
        | none => lookup? acc.1 k := by
  induction rows generalizing acc with
  | nil => simp [lastWrite]
  | cons row rest ih =>
    show lookup? (rest.foldl loadRow (loadRow acc row)).1 k = _
    rw [ih]
    rcases hlw : lastWrite rest k with _ | v
    · rcases row with _ | ⟨a, _ | ⟨b, extra⟩⟩
      · simp [lastWrite, hlw, loadRow]
      · simp [lastWrite, hlw, loadRow]
      · by_cases hk : a.trim = k
        · simp [lastWrite, hlw, loadRow, hk]
        · have hk' : ¬ k = a.trim := fun hc => hk hc.symm
          simp [lastWrite, hlw, loadRow, hk, hk']
    · simp [lastWrite, hlw]

theorem lastWrite_append (l₁ l₂ : List (List String)) (k : String) :
    lastWrite (l₁ ++ l₂) k
      = match lastWrite l₂ k with
        | some v => some v
        | none => lastWrite l₁ k := by
  induction l₁ with
  | nil => rcases h : lastWrite l₂ k with _ | v <;> simp [lastWrite, h]
  | cons row rest ih =>
    rcases h : lastWrite l₂ k with _ | v <;>
      rcases h2 : lastWrite rest k with _ | w <;>
        simp [lastWrite, ih, h, h2]

/-! ## Instance Scanner (`get_pcn_instances` in `analyze_pcn_captions.py`) -/

/-- One entry of the listing of a `root/<split>/complete` directory: its name,
whether it is a directory, and (for directories) the names of the files it
contains. -/
structure DirEntry where
  name : String
  isDir : Bool
  files : List String
deriving DecidableEq

/-- The filesystem as seen by the scanner: for each split name, the listing of
`root/<split>/complete`, or `none` when that subtree does not exist. -/
def FileSystem : Type := String → Option (List DirEntry)

/-- `class_dir.glob('*.pcd')`: files with the `.pcd` extension (glob does not
match names starting with a dot). -/
def globPcd (files : List String) : List String :=
  files.filter (fun f => f.endsWith ".pcd" && !f.startsWith ".")

/-- `Path.stem` of a `*.pcd` glob match: the filename without its `.pcd`
extension. -/
def stem (f : String) : String := f.dropRight 4

/-- The fixed ordered split list `['test', 'train', 'val']`. -/
def splits : List String := ["test", "train", "val"]

/-- `[f.stem for f in class_dir.glob('*.pcd')]`. -/
def instanceIds (d : DirEntry) : List String := (globPcd d.files).map stem

/-- An inventory: split → category → ordered local instance ids. -/
abbrev Inventory := List (String × List (String × List String))

/-- Body of the class-directory loop of `get_pcn_instances`:
`all_class_ids.add(class_id)` and `pcn_instances[split][class_id] = instance_ids`. -/
def scanStep (split : String) (acc : Inventory × List String) (d : DirEntry) :
    Inventory × List String :=
  (upsert acc.1 split (upsert (lookupD acc.1 split []) d.name (instanceIds d)),
   addSet acc.2 d.name)

/-- One iteration of the split loop of `get_pcn_instances`: a split whose
`complete` subtree is missing is skipped with a warning (the `continue`
branch); otherwise each class directory contributes its `.pcd` stems. -/
def processSplit (fs : FileSystem) (acc : Inventory × List String)
    (split : String) : Inventory × List String :=
  match fs split with
  | none => acc
  | some entries => (entries.filter (fun d => d.isDir)).foldl (scanStep split) acc

/-- `get_pcn_instances`: starts from `{'test': {}, 'train': {}, 'val': {}}` and
an empty class-id set, then runs the split loop. -/
def get_pcn_instances (fs : FileSystem) : Inventory × List String :=
  splits.foldl (processSplit fs) ([("test", []), ("train", []), ("val", [])], [])

/-- The per-split contribution of the scanner, in isolation: empty when the
subtree is missing, otherwise the scanned class dictionary. -/
def scanSplit (fs : FileSystem) (split : String) : List (String × List String) :=
  match fs split with
  | none => []
  | some entries =>
    (entries.filter (fun d => d.isDir)).foldl
      (fun m d => upsert m d.name (instanceIds d)) []

/-! ## Reconciler (`analyze_missing_captions` in `analyze_pcn_captions.py`) -/

/-- The per-split/per-category counter record
`{'total': …, 'with_caption': …, 'without_caption': …}`. -/
structure Stats where
  total : Nat
  with_caption : Nat
  without_caption : Nat
deriving DecidableEq

/-- `f"{class_id}_{instance_id}"`, the composite join key. -/
def composite (class_id instance_id : String) : String :=
  class_id ++ "_" ++ instance_id

/-- One iteration of the instance loop of `analyze_missing_captions`: appends
the local id to `with_captions` when its composite key is in the captions
dict, to `missing_captions` otherwise (first component = `with_captions`,
second = `missing_captions`). -/
def partStep (captions : List (String × String)) (class_id : String)
    (acc : List String × List String) (l : String) : List String × List String :=
  if memKeys captions (composite class_id l) then (acc.1 ++ [l], acc.2)
  else (acc.1, acc.2 ++ [l])

/-- The instance loop of `analyze_missing_captions`, starting from two empty
lists. -/
def partitionIds (captions : List (String × String)) (class_id : String)
    (ids : List String) : List String × List String :=
  ids.foldl (partStep captions class_id) ([], [])

/-- One iteration of the class loop of `analyze_missing_captions`:
`results['pcn_without_caption'][split][class_id] = missing_captions` and
`results['stats_by_split'][split][class_id] = {...}`. -/
def analyzeStep (captions : List (String × String))
    (acc : List (String × List String) × List (String × Stats))
    (e : String × List String) :
    List (String × List String) × List (String × Stats) :=
  let p := partitionIds captions e.1 e.2
  (upsert acc.1 e.1 p.2, upsert acc.2 e.1 ⟨e.2.length, p.1.length, p.2.length⟩)

/-- The class loop of `analyze_missing_captions` for one split: fills
`results['pcn_without_caption'][split]` and `results['stats_by_split'][split]`
(both start as `{}`). -/
def analyzeSplit (captions : List (String × String))
    (entries : List (String × List String)) :
    List (String × List String) × List (String × Stats) :=
  entries.foldl (analyzeStep captions) ([], [])

/-- `all_pcn_instances`: the set of composite identifiers occurring anywhere in
the inventory. -/
def allPcnInstances (inv : Inventory) : List String :=
  splits.foldl
    (fun s split =>
      (lookupD inv split []).foldl
        (fun s2 e => e.2.foldl (fun s3 l => addSet s3 (composite e.1 l)) s2) s)
    []

/-- `results['caption_without_pcn'][class_id].append(instance_id)`, creating
the empty bucket first when the class id is absent. -/
def appendBucket : List (String × List String) → String → String →
    List (String × List String)
  | [], c, k => [(c, [k])]
  | e :: rest, c, k =>
    if e.1 = c then (e.1, e.2 ++ [k]) :: rest else e :: appendBucket rest c k

/-- One iteration of the `for instance_id in captions.keys()` loop: identifiers
that have a PCN instance are skipped, the rest are bucketed by derived class
id. -/
def capStep (inv : Inventory) (m : List (String × List String)) (k : String) :
    List (String × List String) :=
  if k ∈ allPcnInstances inv then m else appendBucket m (classOf k) k

/-- The reconciliation result (`results` dict of `analyze_missing_captions`;
the `total_stats` entry is initialised to `{}` and never populated, so it is
omitted). -/
structure AnalysisResults where
  pcn_without_caption : List (String × List (String × List String))
  caption_without_pcn : List (String × List String)
  stats_by_split : List (String × List (String × Stats))
deriving DecidableEq

/-- `analyze_missing_captions`: per-split partitioning, then the
caption-without-instance pass over `captions.keys()` in insertion order. -/
def analyze_missing_captions (inv : Inventory)
    (captions : List (String × String)) : AnalysisResults :=
  { pcn_without_caption :=
      splits.map (fun s => (s, (analyzeSplit captions (lookupD inv s [])).1)),
    stats_by_split :=
      splits.map (fun s => (s, (analyzeSplit captions (lookupD inv s [])).2)),
    caption_without_pcn := (keys captions).foldl (capStep inv) [] }

/-! ## Report aggregates (`print_detailed_report`, `quick_summary`) -/

/-- The per-split accumulation loop of `print_detailed_report`:
`(split_with_caption, split_without_caption, split_total)`, each summed from
the per-category stats records. -/
def splitAgg (stats : List (String × Stats)) : Nat × Nat × Nat :=
  stats.foldl
    (fun a e => (a.1 + e.2.with_caption, a.2.1 + e.2.without_caption, a.2.2 + e.2.total))
    (0, 0, 0)

/-- The overall accumulation of `print_detailed_report`:
`(total_with_caption, total_without_caption, total_instances)` summed over the
three splits. -/
def overallAgg (results : AnalysisResults) : Nat × Nat × Nat :=
  splits.foldl
    (fun a s =>
      let g := splitAgg (lookupD results.stats_by_split s [])
      (a.1 + g.1, a.2.1 + g.2.1, a.2.2 + g.2.2))
    (0, 0, 0)

/-- Python `num/den*100` on counts: raises `ZeroDivisionError` when `den == 0`
(modelled as `none`), otherwise the exact percentage. -/
def pctOf (num den : Nat) : Option ℚ :=
  if den = 0 then none else some ((num : ℚ) / den * 100)

/-- The `With captions: … ({…}%)` per-split line of `print_detailed_report`:
`split_with_caption/split_total*100`, with no guard against a zero total. -/
def reportSplitPct (results : AnalysisResults) (split : String) : Option ℚ :=
  let g := splitAgg (lookupD results.stats_by_split split [])
  pctOf g.1 g.2.2

/-- The `OVERALL` percentage line of `print_detailed_report`:
`total_with_caption/total_instances*100`, with no guard against a zero total. -/
def reportOverallPct (results : AnalysisResults) : Option ℚ :=
  let g := overallAgg results
  pctOf g.1 g.2.2

/-- The per-split coverage of `quick_summary`:
`with/total*100 if total > 0 else 0` — guarded, total. -/
def quickCoverage (withCount total : Nat) : ℚ :=
  if 0 < total then (withCount : ℚ) / total * 100 else 0

/-- The overall percentage lines of `quick_summary`:
`total_with_captions/total_pcn*100`, unguarded. -/
def quickOverallPct (withCount total : Nat) : Option ℚ := pctOf withCount total

/-! ## Concrete example inputs (from the specification's worked example) -/

/-- The spec's worked example inventory: `{train: {01: [a001, a003]}}`, here
with the two other splits empty as the scanner always materialises them. -/
def exInv : Inventory :=
  [("test", []), ("train", [("01", ["a001", "a003"])]), ("val", [])]

/-- The spec's worked example caption table. -/
def exCaps : List (String × String) :=
  [("01_a001", "a red chair"), ("01_a002", "a blue chair")]

/-- A filesystem whose `test` split exists (one class directory with two point
clouds, plus a stray non-directory entry) and whose other splits are missing. -/
def exFs : FileSystem := fun s =>
  if s = "test" then
    some [⟨"01", true, ["a001.pcd", "a003.pcd"]⟩, ⟨"notes.txt", false, []⟩]
  else none

/-- A root under which no split subtree exists at all. -/
def emptyFs : FileSystem := fun _ => none

/-! ## Loader theorems -/

/-- Step function of `quickLoadCaptions`, named for use in proofs. -/
def quickLoadRow (m : List (String × String)) : List String → List (String × String)
  | a :: b :: _ => upsert m a.trim b.trim
  | _ => m

theorem quickLoad_eq_load (rows : List (List String)) :
    quickLoadCaptions rows = (load_caption_data (some rows)).1 := by
  suffices h : ∀ acc : List (String × String) × List String,
      (rows.foldl loadRow acc).1 = rows.foldl quickLoadRow acc.1 by
    exact (h ([], [])).symm
  induction rows with
  | nil => intro acc; rfl
  | cons row rest ih =>
    intro acc
    show (rest.foldl loadRow (loadRow acc row)).1 = rest.foldl quickLoadRow (quickLoadRow acc.1 row)
    rw [ih]
    congr 1
    rcases row with _ | ⟨a, _ | ⟨b, r⟩⟩ <;> rfl

/-- C2: when the caption source cannot be opened or decoded, `load_caption_data`
returns an empty mapping and an empty set instead of raising, and the caller's
emptiness check on the returned mapping (`main`'s `if not captions or not
pcn_instances` guard) fires, aborting the run with a message instead of
crashing. -/
theorem C2_unreadable_source_returns_empty (inv : Inventory) :
    load_caption_data none = ([], [])
    ∧ mainAbortsOnLoad (load_caption_data none).1 inv = true := by
  exact ⟨rfl, rfl⟩

/-- C6: the loader's mapping holds, for every key, the caption of the last
well-formed row writing that key; in particular when the same identifier occurs
in two rows the later one wins, with no warning; and loading the same source
twice yields identical results (loading is deterministic and idempotent). -/
theorem C6_last_write_wins (pre mid : List (List String)) (id c₁ c₂ : String)
    (extra₁ extra₂ : List String) (rows : List (List String)) (k : String) :
    lookup? (load_caption_data
        (some (pre ++ [id :: c₁ :: extra₁] ++ mid ++ [id :: c₂ :: extra₂]))).1 id.trim
      = some c₂.trim
    ∧ lookup? (load_caption_data (some rows)).1 k = lastWrite rows k
    ∧ load_caption_data (some rows) = load_caption_data (some rows) := by
  refine ⟨?_, ?_, rfl⟩
  · show lookup?
        (((pre ++ [id :: c₁ :: extra₁] ++ mid ++ [id :: c₂ :: extra₂]).foldl
          loadRow ([], []))).1 id.trim = some c₂.trim
    rw [load_lookup_eq_lastWrite, lastWrite_append]
    simp [lastWrite]
  · show lookup? ((rows.foldl loadRow ([], []))).1 k = lastWrite rows k
    rw [load_lookup_eq_lastWrite]
    rcases lastWrite rows k with _ | v <;> simp [lookup?]

/-- C7: a row with fewer than two fields is skipped without error (loading with
and without it gives the same result); a row with at least two fields stores
identifier and caption with surrounding whitespace trimmed from both; and the
caption loop of `quick_summary` handles rows identically. -/
theorem C7_short_rows_skipped_fields_trimmed (l₁ l₂ : List (List String))
    (row : List String) (a b : String) (extra : List String) :
    (row.length < 2 →
      load_caption_data (some (l₁ ++ row :: l₂)) = load_caption_data (some (l₁ ++ l₂)))
    ∧ lookup? (load_caption_data (some (l₁ ++ [a :: b :: extra]))).1 a.trim = some b.trim
    ∧ quickLoadCaptions (l₁ ++ l₂) = (load_caption_data (some (l₁ ++ l₂))).1 := by
  refine ⟨?_, ?_, quickLoad_eq_load _⟩
  · intro hlen
    show (l₁ ++ row :: l₂).foldl loadRow ([], []) = (l₁ ++ l₂).foldl loadRow ([], [])
    rw [List.foldl_append, List.foldl_append, List.foldl_cons]
    rcases row with _ | ⟨x, _ | ⟨y, r⟩⟩
    · rfl
    · rfl
    · simp only [List.length_cons] at hlen
      omega
  · show lookup? (((l₁ ++ [a :: b :: extra]).foldl loadRow ([], []))).1 a.trim = some b.trim
    rw [List.foldl_append]
    simp [loadRow]

theorem C7_witness :
    (load_caption_data (some ([["01_a001", " a red chair "]] ++ ["lonely"] :: []))
      = load_caption_data (some ([["01_a001", " a red chair "]] ++ [])))
    ∧ lookup? (load_caption_data
        (some ([["widget", "w"]] ++ [[" 01_a001 ", " a red chair "]]))).1 " 01_a001 ".trim
      = some " a red chair ".trim :=
  ⟨(C7_short_rows_skipped_fields_trimmed [["01_a001", " a red chair "]] [] ["lonely"]
      "x" "y" []).1 (by decide),
   (C7_short_rows_skipped_fields_trimmed [["widget", "w"]] [] []
      " 01_a001 " " a red chair " []).2.1⟩

theorem takeWhile_underscore (la lb : List Char) (h : ∀ c ∈ la, c ≠ '_') :
    (la ++ '_' :: lb).takeWhile (fun c => c ≠ '_') = la := by
  induction la with
  | nil => simp
  | cons c rest ih =>
    have hc : c ≠ '_' := h c (List.mem_cons_self c rest)
    have ih' := ih (fun x hx => h x (List.mem_cons_of_mem _ hx))
    simp only [ne_eq, decide_not] at ih' ⊢
    simp only [List.cons_append, List.takeWhile_cons]
    simp [hc, ih']

theorem takeWhile_all_eq (l : List Char) (h : ∀ c ∈ l, c ≠ '_') :
    l.takeWhile (fun c => c ≠ '_') = l := by
  induction l with
  | nil => rfl
  | cons c rest ih =>
    have hc : c ≠ '_' := h c (List.mem_cons_self c rest)
    have ih' := ih (fun x hx => h x (List.mem_cons_of_mem _ hx))
    simp only [ne_eq, decide_not] at ih' ⊢
    simp only [List.takeWhile_cons]
    simp [hc, ih']

/-- C8: the derived category id is the prefix of the identifier before its
first underscore, and the whole identifier when it contains no underscore;
`classOf` is a total function, so derivation never raises. -/
theorem C8_classOf_first_underscore (a b s : String) :
    ((∀ c ∈ a.data, c ≠ '_') → classOf (a ++ "_" ++ b) = a)
    ∧ ((∀ c ∈ s.data, c ≠ '_') → classOf s = s) := by
  constructor
  · intro h
    obtain ⟨la⟩ := a
    show String.mk (((String.mk la ++ "_" ++ b).data).takeWhile _) = String.mk la
    rw [String.data_append, String.data_append]
    show String.mk ((la ++ ['_'] ++ b.data).takeWhile _) = String.mk la
    rw [List.append_assoc]
    exact congrArg String.mk (takeWhile_underscore la b.data h)
  · intro h
    obtain ⟨ls⟩ := s
    show String.mk (ls.takeWhile _) = String.mk ls
    exact congrArg String.mk (takeWhile_all_eq ls h)

theorem C8_witness :
    classOf ("02" ++ "_" ++ "a001") = "02" ∧ classOf "widget" = "widget" :=
  ⟨(C8_classOf_first_underscore "02" "a001" "widget").1 (by decide),
   (C8_classOf_first_underscore "02" "a001" "widget").2 (by decide)⟩

/-! ## Scanner theorems -/

theorem innerFold_lookup_other (split : String) (dirs : List DirEntry) :
    ∀ (acc : Inventory × List String) (s : String), s ≠ split →
      lookup? ((dirs.foldl (scanStep split) acc).1) s = lookup? acc.1 s := by
  induction dirs with
  | nil => intro acc s _; rfl
  | cons d rest ih =>
    intro acc s h
    show lookup? ((rest.foldl (scanStep split) (scanStep split acc d)).1) s = _
    rw [ih _ _ h]
    simp [scanStep, lookup_upsert, h]

theorem innerFold_lookup_self (split : String) (dirs : List DirEntry) :
    ∀ (acc : Inventory × List String) (m₀ : List (String × List String)),
      lookup? acc.1 split = some m₀ →
      lookup? ((dirs.foldl (scanStep split) acc).1) split
        = some (dirs.foldl (fun m d => upsert m d.name (instanceIds d)) m₀) := by
  induction dirs with
  | nil => intro acc m₀ hm; exact hm
  | cons d rest ih =>
    intro acc m₀ hm
    show lookup? ((rest.foldl (scanStep split) (scanStep split acc d)).1) split = _
    have hm' : lookup? (scanStep split acc d).1 split
        = some (upsert m₀ d.name (instanceIds d)) := by
      simp [scanStep, lookup_upsert, lookupD, hm]
    rw [ih _ _ hm']
    rfl

theorem processSplit_lookup_other (fs : FileSystem) (acc : Inventory × List String)
    (split s : String) (h : s ≠ split) :
    lookup? (processSplit fs acc split).1 s = lookup? acc.1 s := by
  unfold processSplit
  cases fs split
  · rfl
  · exact innerFold_lookup_other split _ acc s h

theorem processSplit_lookup_self (fs : FileSystem) (acc : Inventory × List String)
    (split : String) (hm : lookup? acc.1 split = some []) :
    lookup? (processSplit fs acc split).1 split = some (scanSplit fs split) := by
  unfold processSplit scanSplit
  cases fs split
  · exact hm
  · exact innerFold_lookup_self split _ acc [] hm

theorem innerFold_keys (split : String) (dirs : List DirEntry) :
    ∀ acc : Inventory × List String, split ∈ keys acc.1 →
      keys ((dirs.foldl (scanStep split) acc).1) = keys acc.1 := by
  induction dirs with
  | nil => intro acc _; rfl
  | cons d rest ih =>
    intro acc h
    show keys ((rest.foldl (scanStep split) (scanStep split acc d)).1) = _
    have hk : keys (scanStep split acc d).1 = keys acc.1 :=
      keys_upsert_of_mem acc.1 split _ h
    rw [ih _ (hk ▸ h), hk]

theorem processSplit_keys (fs : FileSystem) (acc : Inventory × List String)
    (split : String) (h : split ∈ keys acc.1) :
    keys (processSplit fs acc split).1 = keys acc.1 := by
  unfold processSplit
  cases fs split
  · rfl
  · exact innerFold_keys split _ acc h

theorem get_pcn_keys (fs : FileSystem) :
    keys (get_pcn_instances fs).1 = ["test", "train", "val"] := by
  show keys (processSplit fs (processSplit fs (processSplit fs
      ([("test", []), ("train", []), ("val", [])], []) "test") "train") "val").1
    = ["test", "train", "val"]
  have h0 : keys (([("test", []), ("train", []), ("val", [])], []) :
      Inventory × List String).1 = ["test", "train", "val"] := rfl
  have h1 := processSplit_keys fs ([("test", []), ("train", []), ("val", [])], [])
    "test" (by rw [h0]; decide)
  have h2 := processSplit_keys fs _ "train" (by rw [h1, h0]; decide)
  have h3 := processSplit_keys fs _ "val" (by rw [h2, h1, h0]; decide)
  rw [h3, h2, h1, h0]

theorem get_pcn_lookup (fs : FileSystem) (s : String) (hs : s ∈ splits) :
    lookup? (get_pcn_instances fs).1 s = some (scanSplit fs s) := by
  show lookup? (processSplit fs (processSplit fs (processSplit fs
      ([("test", []), ("train", []), ("val", [])], []) "test") "train") "val").1 s
    = some (scanSplit fs s)
  have hs' : s = "test" ∨ s = "train" ∨ s = "val" := by
    simpa [splits] using hs
  rcases hs' with rfl | rfl | rfl
  · rw [processSplit_lookup_other fs _ "val" "test" (by decide),
        processSplit_lookup_other fs _ "train" "test" (by decide)]
    exact processSplit_lookup_self fs _ "test" (by decide)
  · rw [processSplit_lookup_other fs _ "val" "train" (by decide)]
    refine processSplit_lookup_self fs _ "train" ?_
    rw [processSplit_lookup_other fs _ "test" "train" (by decide)]
    decide
  · refine processSplit_lookup_self fs _ "val" ?_
    rw [processSplit_lookup_other fs _ "train" "val" (by decide),
        processSplit_lookup_other fs _ "test" "val" (by decide)]
    decide

/-- C9: for every root filesystem and every split in the fixed ordered list
whose `complete` subtree does not exist, `get_pcn_instances` does not fail:
that split contributes an empty mapping, and every split in the list still
receives exactly its own scan result (scanning continues with the remaining
splits). -/
theorem C9_missing_split_nonfatal (fs : FileSystem) (s : String)
    (hs : s ∈ splits) (hmiss : fs s = none) :
    lookup? (get_pcn_instances fs).1 s = some []
    ∧ ∀ s', s' ∈ splits → lookup? (get_pcn_instances fs).1 s' = some (scanSplit fs s') := by
  refine ⟨?_, fun s' hs' => get_pcn_lookup fs s' hs'⟩
  rw [get_pcn_lookup fs s hs]
  simp [scanSplit, hmiss]

theorem C9_witness :
    lookup? (get_pcn_instances exFs).1 "val" = some []
    ∧ lookup? (get_pcn_instances exFs).1 "test" = some (scanSplit exFs "test") :=
  ⟨(C9_missing_split_nonfatal exFs "val" (by decide) (by decide)).1,
   (C9_missing_split_nonfatal exFs "val" (by decide) (by decide)).2 "test" (by decide)⟩

/-- C10: for every root filesystem — including one where no split subtree
exists at all — the inventory returned by the scanner has exactly the keys
`test`, `train`, `val`, hence is never the empty mapping, so the emptiness
check in `main` can only ever be triggered by the captions dict, never by the
scanner. -/
theorem C10_inventory_never_empty (fs : FileSystem)
    (captions : List (String × String)) :
    keys (get_pcn_instances fs).1 = ["test", "train", "val"]
    ∧ (get_pcn_instances fs).1.isEmpty = false
    ∧ mainAbortsOnLoad captions (get_pcn_instances fs).1 = captions.isEmpty := by
  have hk := get_pcn_keys fs
  have hne : (get_pcn_instances fs).1.isEmpty = false := by
    rcases hinv : (get_pcn_instances fs).1 with _ | ⟨e, rest⟩
    · rw [hinv] at hk
      simp at hk
    · rfl
  refine ⟨hk, hne, ?_⟩
  simp [mainAbortsOnLoad, hne]

/-! ## Reconciler theorems -/

theorem partStep_foldl (captions : List (String × String)) (c : String)
    (ids : List String) :
    ∀ acc : List String × List String,
      ids.foldl (partStep captions c) acc
        = (acc.1 ++ ids.filter (fun l => memKeys captions (composite c l)),
           acc.2 ++ ids.filter (fun l => !(memKeys captions (composite c l)))) := by
  induction ids with
  | nil => intro acc; simp
  | cons l rest ih =>
    intro acc
    show rest.foldl (partStep captions c) (partStep captions c acc l) = _
    rw [ih]
    cases hm : memKeys captions (composite c l) <;>
      simp [partStep, hm, List.filter_cons]

/-- The `with_captions`/`missing_captions` accumulation loop computes exactly
the two order-preserving filters of the id list. -/
theorem partitionIds_filter (captions : List (String × String)) (c : String)
    (ids : List String) :
    partitionIds captions c ids
      = (ids.filter (fun l => memKeys captions (composite c l)),
         ids.filter (fun l => !(memKeys captions (composite c l)))) := by
  unfold partitionIds
  rw [partStep_foldl]
  simp

theorem length_filter_add (p : String → Bool) (l : List String) :
    (l.filter p).length + (l.filter (fun x => !(p x))).length = l.length := by
  induction l with
  | nil => rfl
  | cons x rest ih =>
    cases hx : p x <;> simp [List.filter_cons, hx] <;> omega

theorem upsert_forall {α : Type} (P : String × α → Prop)
    (m : List (String × α)) (k : String) (v : α)
    (hm : ∀ e ∈ m, P e) (hv : P (k, v)) : ∀ e ∈ upsert m k v, P e := by
  induction m with
  | nil => simpa [upsert] using hv
  | cons e rest ih =>
    obtain ⟨a, b⟩ := e
    by_cases hk : k = a
    · subst hk
      intro x hx
      rcases List.mem_cons.mp (by simpa [upsert] using hx) with h | h
      · exact h ▸ hv
      · exact hm x (List.mem_cons_of_mem _ h)
    · intro x hx
      rcases List.mem_cons.mp (by simpa [upsert, hk] using hx) with h | h
      · exact h ▸ hm (a, b) (List.mem_cons_self (a, b) rest)
      · exact ih (fun y hy => hm y (List.mem_cons_of_mem _ hy)) x h

theorem lookup_map_self {α : Type} (f : String → α) :
    ∀ (l : List String) (s : String), s ∈ l →
      lookup? (l.map (fun x => (x, f x))) s = some (f s) := by
  intro l
  induction l with
  | nil => intro s hs; simp at hs
  | cons x rest ih =>
    intro s hs
    by_cases h : s = x
    · simp [lookup?, h]
    · have : s ∈ rest := by
        rcases List.mem_cons.mp hs with h1 | h1
        · exact absurd h1 h
        · exact h1
      simp [lookup?, h, ih s this]

theorem analyzeSplit_stats_sum (captions : List (String × String))
    (entries : List (String × List String)) :
    ∀ e ∈ (analyzeSplit captions entries).2,
      e.2.with_caption + e.2.without_caption = e.2.total := by
  unfold analyzeSplit
  suffices h : ∀ (l : List (String × List String))
      (acc : List (String × List String) × List (String × Stats)),
      (∀ e ∈ acc.2, e.2.with_caption + e.2.without_caption = e.2.total) →
      ∀ e ∈ (l.foldl (analyzeStep captions) acc).2,
        e.2.with_caption + e.2.without_caption = e.2.total by
    exact h entries ([], []) (by simp)
  intro l
  induction l with
  | nil => intro acc hacc; exact hacc
  | cons en rest ih =>
    intro acc hacc
    refine ih (analyzeStep captions acc en) ?_
    show ∀ e ∈ upsert acc.2 en.1 _, _
    refine upsert_forall _ acc.2 en.1 _ hacc ?_
    show (partitionIds captions en.1 en.2).1.length
        + (partitionIds captions en.1 en.2).2.length = en.2.length
    rw [partitionIds_filter]
    exact length_filter_add _ en.2

theorem splitAgg_total_eq_sum (stats : List (String × Stats)) :
    ∀ a b c : Nat,
      (stats.foldl
        (fun a e =>
          (a.1 + e.2.with_caption, a.2.1 + e.2.without_caption, a.2.2 + e.2.total))
        (a, b, c)).2.2
      = c + (stats.map (fun e => e.2.total)).sum := by
  induction stats with
  | nil => intro a b c; simp
  | cons e rest ih =>
    intro a b c
    show (rest.foldl _
        (a + e.2.with_caption, b + e.2.without_caption, c + e.2.total)).2.2 = _
    rw [ih]
    simp [Nat.add_assoc]

/-- C3: every per-split/per-category stats record of the reconciler satisfies
`with_caption + without_caption = total`; the split total computed by
`print_detailed_report` is the sum of the per-category totals of that split;
and the grand total is the sum of the three split totals. -/
theorem C3_counts_consistent (inv : Inventory) (captions : List (String × String)) :
    (∀ s, s ∈ splits →
      ∀ e ∈ lookupD (analyze_missing_captions inv captions).stats_by_split s [],
        e.2.with_caption + e.2.without_caption = e.2.total)
    ∧ (∀ s, s ∈ splits →
        (splitAgg (lookupD (analyze_missing_captions inv captions).stats_by_split s [])).2.2
          = ((lookupD (analyze_missing_captions inv captions).stats_by_split s []).map
              (fun e => e.2.total)).sum)
    ∧ (overallAgg (analyze_missing_captions inv captions)).2.2
        = (splits.map (fun s =>
            (splitAgg
              (lookupD (analyze_missing_captions inv captions).stats_by_split s [])).2.2)).sum := by
  refine ⟨?_, ?_, ?_⟩
  · intro s hs e he
    have hl : lookupD (analyze_missing_captions inv captions).stats_by_split s []
        = (analyzeSplit captions (lookupD inv s [])).2 := by
      unfold lookupD analyze_missing_captions
      rw [lookup_map_self (fun s => (analyzeSplit captions (lookupD inv s [])).2) splits s hs]
      rfl
    rw [hl] at he
    exact analyzeSplit_stats_sum captions (lookupD inv s []) e he
  · intro s _
    unfold splitAgg
    rw [splitAgg_total_eq_sum]
    simp
  · show (overallAgg (analyze_missing_captions inv captions)).2.2 = _
    unfold overallAgg
    simp only [splits, List.foldl_cons, List.foldl_nil, List.map_cons,
      List.map_nil, List.sum_cons, List.sum_nil]
    omega

theorem appendBucket_cons_eq (e : String × List String)
    (rest : List (String × List String)) (c k : String) (h : e.1 = c) :
    appendBucket (e :: rest) c k = (e.1, e.2 ++ [k]) :: rest := by
  simp [appendBucket, h]

theorem appendBucket_cons_ne (e : String × List String)
    (rest : List (String × List String)) (c k : String) (h : ¬ e.1 = c) :
    appendBucket (e :: rest) c k = e :: appendBucket rest c k := by
  simp [appendBucket, h]

theorem appendBucket_mem (m : List (String × List String)) (c k x : String) :
    (∃ e ∈ appendBucket m c k, x ∈ e.2) ↔ (∃ e ∈ m, x ∈ e.2) ∨ x = k := by
  induction m with
  | nil => simp [appendBucket]
  | cons e rest ih =>
    by_cases h : e.1 = c
    · rw [appendBucket_cons_eq e rest c k h]
      constructor
      · rintro ⟨f, hf, hx⟩
        rcases List.mem_cons.mp hf with h1 | h1
        · subst h1
          rcases List.mem_append.mp hx with h2 | h2
          · exact Or.inl ⟨e, List.mem_cons_self e rest, h2⟩
          · exact Or.inr (List.mem_singleton.mp h2)
        · exact Or.inl ⟨f, List.mem_cons_of_mem _ h1, hx⟩
      · rintro (⟨f, hf, hx⟩ | hxk)
        · rcases List.mem_cons.mp hf with h1 | h1
          · exact ⟨(e.1, e.2 ++ [k]), List.mem_cons_self _ _,
              List.mem_append.mpr (Or.inl (h1 ▸ hx))⟩
          · exact ⟨f, List.mem_cons_of_mem _ h1, hx⟩
        · exact ⟨(e.1, e.2 ++ [k]), List.mem_cons_self _ _,
            List.mem_append.mpr (Or.inr (List.mem_singleton.mpr hxk))⟩
    · rw [appendBucket_cons_ne e rest c k h]
      constructor
      · rintro ⟨f, hf, hx⟩
        rcases List.mem_cons.mp hf with h1 | h1
        · exact Or.inl ⟨e, List.mem_cons_self e rest, h1 ▸ hx⟩
        · rcases ih.mp ⟨f, h1, hx⟩ with ⟨g, hg, hgx⟩ | h2
          · exact Or.inl ⟨g, List.mem_cons_of_mem _ hg, hgx⟩
          · exact Or.inr h2
      · rintro (⟨f, hf, hx⟩ | hxk)
        · rcases List.mem_cons.mp hf with h1 | h1
          · exact ⟨e, List.mem_cons_self _ _, h1 ▸ hx⟩
          · rcases ih.mpr (Or.inl ⟨f, h1, hx⟩) with ⟨g, hg, hgx⟩
            exact ⟨g, List.mem_cons_of_mem _ hg, hgx⟩
        · rcases ih.mpr (Or.inr hxk) with ⟨g, hg, hgx⟩
          exact ⟨g, List.mem_cons_of_mem _ hg, hgx⟩

theorem appendBucket_label (m : List (String × List String)) (k : String)
    (hm : ∀ e ∈ m, ∀ x ∈ e.2, e.1 = classOf x) :
    ∀ e ∈ appendBucket m (classOf k) k, ∀ x ∈ e.2, e.1 = classOf x := by
  induction m with
  | nil =>
    intro e he x hx
    simp only [appendBucket, List.mem_singleton] at he
    subst he
    rw [List.mem_singleton.mp hx]
  | cons f rest ih =>
    by_cases h : f.1 = classOf k
    · rw [appendBucket_cons_eq f rest _ k h]
      intro e he x hx
      rcases List.mem_cons.mp he with h1 | h1
      · subst h1
        rcases List.mem_append.mp hx with h2 | h2
        · exact hm f (List.mem_cons_self f rest) x h2
        · rw [List.mem_singleton.mp h2]
          exact h
      · exact hm e (List.mem_cons_of_mem _ h1) x hx
    · rw [appendBucket_cons_ne f rest _ k h]
      intro e he x hx
      rcases List.mem_cons.mp he with h1 | h1
      · rw [h1]
        exact hm f (List.mem_cons_self f rest) x (h1 ▸ hx)
      · exact ih (fun g hg => hm g (List.mem_cons_of_mem _ hg)) e h1 x hx

theorem capFold_mem (inv : Inventory) :
    ∀ (ks : List String) (m : List (String × List String)) (x : String),
      (∃ e ∈ ks.foldl (capStep inv) m, x ∈ e.2)
        ↔ (∃ e ∈ m, x ∈ e.2) ∨ (x ∈ ks ∧ x ∉ allPcnInstances inv) := by
  intro ks
  induction ks with
  | nil => simp
  | cons k rest ih =>
    intro m x
    show (∃ e ∈ rest.foldl (capStep inv) (capStep inv m k), x ∈ e.2) ↔ _
    rw [ih]
    by_cases hk : k ∈ allPcnInstances inv
    · rw [show capStep inv m k = m from if_pos hk]
      constructor
      · rintro (h | ⟨hr, hp⟩)
        · exact Or.inl h
        · exact Or.inr ⟨List.mem_cons_of_mem _ hr, hp⟩
      · rintro (h | ⟨hkr, hp⟩)
        · exact Or.inl h
        · rcases List.mem_cons.mp hkr with rfl | hr
          · exact absurd hk hp
          · exact Or.inr ⟨hr, hp⟩
    · rw [show capStep inv m k = appendBucket m (classOf k) k from if_neg hk,
          appendBucket_mem]
      constructor
      · rintro ((h | rfl) | ⟨hr, hp⟩)
        · exact Or.inl h
        · exact Or.inr ⟨List.mem_cons_self _ _, hk⟩
        · exact Or.inr ⟨List.mem_cons_of_mem _ hr, hp⟩
      · rintro (h | ⟨hkr, hp⟩)
        · exact Or.inl (Or.inl h)
        · rcases List.mem_cons.mp hkr with rfl | hr
          · exact Or.inl (Or.inr rfl)
          · exact Or.inr ⟨hr, hp⟩

theorem capFold_label (inv : Inventory) :
    ∀ (ks : List String) (m : List (String × List String)),
      (∀ e ∈ m, ∀ x ∈ e.2, e.1 = classOf x) →
      ∀ e ∈ ks.foldl (capStep inv) m, ∀ x ∈ e.2, e.1 = classOf x := by
  intro ks
  induction ks with
  | nil => intro m hm; exact hm
  | cons k rest ih =>
    intro m hm
    refine ih (capStep inv m k) ?_
    unfold capStep
    by_cases hk : k ∈ allPcnInstances inv
    · rw [if_pos hk]; exact hm
    · rw [if_neg hk]; exact appendBucket_label m k hm

theorem mem_idsFold (c : String) :
    ∀ (ids : List String) (s : List String) (x : String),
      x ∈ ids.foldl (fun s3 l => addSet s3 (composite c l)) s
        ↔ x ∈ s ∨ ∃ l ∈ ids, x = composite c l := by
  intro ids
  induction ids with
  | nil => simp
  | cons l rest ih =>
    intro s x
    show x ∈ rest.foldl _ (addSet s (composite c l)) ↔ _
    rw [ih]
    simp only [mem_addSet, List.mem_cons]
    constructor
    · rintro ((h | h) | ⟨l', hl', h⟩)
      · exact Or.inl h
      · exact Or.inr ⟨l, Or.inl rfl, h⟩
      · exact Or.inr ⟨l', Or.inr hl', h⟩
    · rintro (h | ⟨l', hl' | hl', h⟩)
      · exact Or.inl (Or.inl h)
      · exact Or.inl (Or.inr (hl' ▸ h))
      · exact Or.inr ⟨l', hl', h⟩

theorem mem_entriesFold (entries : List (String × List String)) :
    ∀ (s : List String) (x : String),
      x ∈ entries.foldl
          (fun s2 e => e.2.foldl (fun s3 l => addSet s3 (composite e.1 l)) s2) s
        ↔ x ∈ s ∨ ∃ e ∈ entries, ∃ l ∈ e.2, x = composite e.1 l := by
  induction entries with
  | nil => simp
  | cons e rest ih =>
    intro s x
    show x ∈ rest.foldl _ (e.2.foldl _ s) ↔ _
    rw [ih, mem_idsFold]
    simp only [List.mem_cons]
    constructor
    · rintro ((h | h) | ⟨f, hf, h⟩)
      · exact Or.inl h
      · exact Or.inr ⟨e, Or.inl rfl, h⟩
      · exact Or.inr ⟨f, Or.inr hf, h⟩
    · rintro (h | ⟨f, hf | hf, h⟩)
      · exact Or.inl (Or.inl h)
      · exact Or.inl (Or.inr (hf ▸ h))
      · exact Or.inr ⟨f, hf, h⟩

theorem mem_allPcnInstances (inv : Inventory) (x : String) :
    x ∈ allPcnInstances inv
      ↔ ∃ s ∈ splits, ∃ e ∈ lookupD inv s [], ∃ l ∈ e.2, x = composite e.1 l := by
  show x ∈ ((["test", "train", "val"] : List String).foldl
      (fun s split => (lookupD inv split []).foldl
        (fun s2 e => e.2.foldl (fun s3 l => addSet s3 (composite e.1 l)) s2) s) []) ↔ _
  simp only [List.foldl_cons, List.foldl_nil]
  rw [mem_entriesFold, mem_entriesFold, mem_entriesFold]
  show _ ↔ ∃ s ∈ (["test", "train", "val"] : List String), _
  simp only [List.mem_cons, List.not_mem_nil, or_false, exists_eq_or_imp,
    exists_eq_left, List.mem_singleton]
  constructor
  · rintro (((h | h) | h) | h)
    · simp at h
    · exact Or.inl h
    · exact Or.inr (Or.inl h)
    · exact Or.inr (Or.inr h)
  · rintro (h | h | h)
    · exact Or.inl (Or.inl (Or.inr h))
    · exact Or.inl (Or.inr h)
    · exact Or.inr h

/-- C4: the caption-without-instance grouping contains an identifier exactly
when it is a caption key with no composite identifier anywhere in the
inventory; every occurrence is bucketed under its derived category id; and an
identifier present in both sources never appears in the grouping. -/
theorem C4_caption_without_instance (inv : Inventory)
    (captions : List (String × String)) (k : String) :
    ((∃ e ∈ (analyze_missing_captions inv captions).caption_without_pcn, k ∈ e.2)
      ↔ (k ∈ keys captions
          ∧ ¬ ∃ s ∈ splits, ∃ e ∈ lookupD inv s [], ∃ l ∈ e.2, k = composite e.1 l))
    ∧ (∀ e ∈ (analyze_missing_captions inv captions).caption_without_pcn,
        ∀ x ∈ e.2, e.1 = classOf x)
    ∧ ((∃ s ∈ splits, ∃ e ∈ lookupD inv s [], ∃ l ∈ e.2, k = composite e.1 l) →
        ∀ e ∈ (analyze_missing_captions inv captions).caption_without_pcn, k ∉ e.2) := by
  have hbuckets : (analyze_missing_captions inv captions).caption_without_pcn
      = (keys captions).foldl (capStep inv) [] := rfl
  refine ⟨?_, ?_, ?_⟩
  · rw [hbuckets, capFold_mem inv (keys captions) [] k]
    rw [← mem_allPcnInstances]
    simp
  · rw [hbuckets]
    exact capFold_label inv (keys captions) [] (by simp)
  · intro hpcn e he hk
    have := (capFold_mem inv (keys captions) [] k).mp ⟨e, hbuckets ▸ he, hk⟩
    rcases this with ⟨f, hf, _⟩ | ⟨_, hnp⟩
    · simp at hf
    · exact hnp ((mem_allPcnInstances inv k).mpr hpcn)

theorem C4_witness :
    (∃ e ∈ (analyze_missing_captions exInv exCaps).caption_without_pcn,
      "01_a002" ∈ e.2)
    ∧ ¬ (∃ e ∈ (analyze_missing_captions exInv exCaps).caption_without_pcn,
      "01_a001" ∈ e.2) :=
  ⟨(C4_caption_without_instance exInv exCaps "01_a002").1.mpr
      ⟨by decide, by decide⟩,
   fun h => ((C4_caption_without_instance exInv exCaps "01_a001").1.mp h).2
      (by decide)⟩

/-- The entry a category contributes to `pcn_without_caption[split]`: its
local ids whose composite key is missing from the captions dict, in scanner
order. -/
def withoutFor (captions : List (String × String)) (e : String × List String) :
    String × List String :=
  (e.1, e.2.filter (fun l => !(memKeys captions (composite e.1 l))))

/-- The entry a category contributes to `stats_by_split[split]`. -/
def statsFor (captions : List (String × String)) (e : String × List String) :
    String × Stats :=
  (e.1,
   ⟨e.2.length,
    (e.2.filter (fun l => memKeys captions (composite e.1 l))).length,
    (e.2.filter (fun l => !(memKeys captions (composite e.1 l)))).length⟩)

theorem analyzeSplit_go (captions : List (String × String)) :
    ∀ (entries : List (String × List String))
      (acc : List (String × List String) × List (String × Stats)),
      (∀ k ∈ keys entries, k ∉ keys acc.1) →
      (∀ k ∈ keys entries, k ∉ keys acc.2) →
      (keys entries).Nodup →
      entries.foldl (analyzeStep captions) acc
        = (acc.1 ++ entries.map (withoutFor captions),
           acc.2 ++ entries.map (statsFor captions)) := by
  intro entries
  induction entries with
  | nil => intro acc _ _ _; simp
  | cons e rest ih =>
    intro acc h1 h2 hnd
    have he1 : e.1 ∉ keys acc.1 := h1 e.1 (by simp)
    have he2 : e.1 ∉ keys acc.2 := h2 e.1 (by simp)
    have hstep : analyzeStep captions acc e
        = (acc.1 ++ [withoutFor captions e], acc.2 ++ [statsFor captions e]) := by
      show (upsert acc.1 e.1 (partitionIds captions e.1 e.2).2,
            upsert acc.2 e.1
              ⟨e.2.length, (partitionIds captions e.1 e.2).1.length,
               (partitionIds captions e.1 e.2).2.length⟩)
          = _
      rw [partitionIds_filter, upsert_of_not_mem acc.1 e.1 _ he1,
          upsert_of_not_mem acc.2 e.1 _ he2]
      simp [withoutFor, statsFor]
    have hnd' : (keys rest).Nodup := by
      simpa using hnd.of_cons
    have hhd : e.1 ∉ keys rest := by
      have := List.nodup_cons.mp (by simpa using hnd)
      exact this.1
    show rest.foldl (analyzeStep captions) (analyzeStep captions acc e) = _
    rw [hstep, ih (acc.1 ++ [withoutFor captions e], acc.2 ++ [statsFor captions e])
        ?_ ?_ hnd']
    · simp
    · intro x hx
      simp only [keys_append]
      intro hc
      rcases List.mem_append.mp hc with hc1 | hc1
      · exact h1 x (List.mem_cons_of_mem _ hx) hc1
      · have : x = e.1 := by simpa [withoutFor, keys] using hc1
        exact hhd (this ▸ hx)
    · intro x hx
      simp only [keys_append]
      intro hc
      rcases List.mem_append.mp hc with hc1 | hc1
      · exact h2 x (List.mem_cons_of_mem _ hx) hc1
      · have : x = e.1 := by simpa [statsFor, keys] using hc1
        exact hhd (this ▸ hx)

/-- With duplicate-free category keys — always the case for a Python dict —
the class loop produces exactly one `pcn_without_caption` entry and one stats
entry per category, in inventory order. -/
theorem analyzeSplit_eq (captions : List (String × String))
    (entries : List (String × List String)) (h : (keys entries).Nodup) :
    analyzeSplit captions entries
      = (entries.map (withoutFor captions), entries.map (statsFor captions)) := by
  unfold analyzeSplit
  rw [analyzeSplit_go captions entries ([], []) (by simp [keys]) (by simp [keys]) h]
  simp

theorem filter_key_map_nil (g : String × List String → String × List String)
    (hg : ∀ e, (g e).1 = e.1) (c : String) :
    ∀ entries : List (String × List String), c ∉ keys entries →
      (entries.map g).filter (fun e => e.1 == c) = [] := by
  intro entries
  induction entries with
  | nil => intro _; rfl
  | cons e rest ih =>
    intro hc
    have hne : ¬ (g e).1 = c := by
      rw [hg e]
      intro h
      exact hc (by simp [h])
    have hc' : c ∉ keys rest := fun h => hc (by simp [h])
    simp only [List.map_cons, List.filter_cons]
    rw [if_neg (by simpa using hne)]
    exact ih hc'

theorem filter_key_map_single (g : String × List String → String × List String)
    (hg : ∀ e, (g e).1 = e.1) :
    ∀ (entries : List (String × List String)) (c : String) (ids : List String),
      (keys entries).Nodup → (c, ids) ∈ entries →
      (entries.map g).filter (fun e => e.1 == c) = [g (c, ids)] := by
  intro entries
  induction entries with
  | nil => intro c ids _ hmem; simp at hmem
  | cons e rest ih =>
    intro c ids hnd hmem
    have hnd2 := List.nodup_cons.mp (by simpa using hnd)
    rcases List.mem_cons.mp hmem with h1 | h1
    · have hkey : (g e).1 = c := by rw [hg e, ← h1]
      have hcnotin : c ∉ keys rest := by
        have hn := hnd2.1
        rw [← h1] at hn
        exact hn
      simp only [List.map_cons, List.filter_cons]
      rw [if_pos (by simpa using hkey), filter_key_map_nil g hg c rest hcnotin,
          ← h1]
    · have hcrest : c ∈ keys rest := by
        simpa [keys] using List.mem_map_of_mem Prod.fst h1
      have hne : ¬ (g e).1 = c := by
        rw [hg e]
        intro h
        exact hnd2.1 (h ▸ hcrest)
      simp only [List.map_cons, List.filter_cons]
      rw [if_neg (by simpa using hne)]
      exact ih c ids hnd2.2 h1

theorem count_filter_partition (p : String → Bool) (ids : List String) (l : String) :
    (ids.filter p).count l + (ids.filter (fun x => !(p x))).count l = ids.count l := by
  induction ids with
  | nil => rfl
  | cons x rest ih =>
    by_cases hxl : l = x
    · subst hxl
      cases hx : p l <;> simp [List.filter_cons, hx, List.count_cons] <;>
        · refine List.count_eq_zero.mpr (fun h => ?_)
          have hp := List.of_mem_filter h
          simp [hx] at hp
    · cases hx : p x <;> simp [List.filter_cons, hx, List.count_cons, hxl] <;> omega

/-- C5: for a split with duplicate-free category keys (dict semantics), the
stored `pcn_without_caption` entries are exactly the order-preserving filters
of each category's id list by "composite key missing from the captions dict";
each category of the split occurs exactly once in that mapping; the instance
loop's two lists are the complementary filters; and together they partition
the category's ids with multiplicity. -/
theorem C5_without_caption_partition (inv : Inventory)
    (captions : List (String × String)) (s : String) (hs : s ∈ splits)
    (hnd : (keys (lookupD inv s [])).Nodup) :
    (lookupD (analyze_missing_captions inv captions).pcn_without_caption s []
        = (lookupD inv s []).map (withoutFor captions))
    ∧ (∀ (c : String) (ids : List String), (c, ids) ∈ lookupD inv s [] →
        (lookupD (analyze_missing_captions inv captions).pcn_without_caption s []).filter
            (fun e => e.1 == c)
          = [(c, ids.filter (fun l => !(memKeys captions (composite c l))))])
    ∧ (∀ (c : String) (ids : List String), partitionIds captions c ids
        = (ids.filter (fun l => memKeys captions (composite c l)),
           ids.filter (fun l => !(memKeys captions (composite c l)))))
    ∧ (∀ (c : String) (ids : List String) (l : String),
        ((ids.filter (fun l' => memKeys captions (composite c l'))).count l
          + (ids.filter (fun l' => !(memKeys captions (composite c l')))).count l
        = ids.count l)) := by
  have hl : lookupD (analyze_missing_captions inv captions).pcn_without_caption s []
      = (analyzeSplit captions (lookupD inv s [])).1 := by
    unfold lookupD analyze_missing_captions
    rw [lookup_map_self (fun s => (analyzeSplit captions (lookupD inv s [])).1) splits s hs]
    rfl
  have heq := analyzeSplit_eq captions (lookupD inv s []) hnd
  refine ⟨?_, ?_, ?_, ?_⟩
  · rw [hl, heq]
  · intro c ids hmem
    rw [hl, heq]
    exact filter_key_map_single (withoutFor captions) (fun e => rfl)
      (lookupD inv s []) c ids hnd hmem
  · intro c ids
    exact partitionIds_filter captions c ids
  · intro c ids l
    exact count_filter_partition _ ids l

theorem C5_witness :
    (lookupD (analyze_missing_captions exInv exCaps).pcn_without_caption "train" []
      = (lookupD exInv "train" []).map (withoutFor exCaps))
    ∧ ((lookupD (analyze_missing_captions exInv exCaps).pcn_without_caption "train" []).filter
          (fun e => e.1 == "01")
        = [("01", ["a001", "a003"].filter
            (fun l => !(memKeys exCaps (composite "01" l))))]) :=
  ⟨(C5_without_caption_partition exInv exCaps "train" (by decide) (by decide)).1,
   (C5_without_caption_partition exInv exCaps "train" (by decide) (by decide)).2.1
      "01" ["a001", "a003"] (by decide)⟩

theorem C3_witness :
    (("01", (⟨2, 1, 1⟩ : Stats)).2.with_caption
        + ("01", (⟨2, 1, 1⟩ : Stats)).2.without_caption
      = ("01", (⟨2, 1, 1⟩ : Stats)).2.total)
    ∧ ((splitAgg (lookupD (analyze_missing_captions exInv exCaps).stats_by_split "train" [])).2.2
        = ((lookupD (analyze_missing_captions exInv exCaps).stats_by_split "train" []).map
            (fun e => e.2.total)).sum) :=
  ⟨(C3_counts_consistent exInv exCaps).1 "train" (by decide)
      ("01", (⟨2, 1, 1⟩ : Stats)) (by decide),
   (C3_counts_consistent exInv exCaps).2.1 "train" (by decide)⟩

/-- C1 (code behaviour at the failing input): on a reconciliation result in
which the `val` split is empty — e.g. because its subtree was missing, which
the scanner treats as non-fatal — the per-split percentage expression of
`print_detailed_report` divides by the zero split total and raises
`ZeroDivisionError` (modelled as `none`) instead of yielding 0; with every
split empty the overall percentage raises as well, as does the overall
percentage of `quick_summary`; only the per-split coverage of `quick_summary`
implements the guard and yields 0. -/
theorem C1_zero_total_division_error :
    reportSplitPct (analyze_missing_captions (get_pcn_instances emptyFs).1 exCaps) "val" = none
    ∧ reportOverallPct (analyze_missing_captions (get_pcn_instances emptyFs).1 exCaps) = none
    ∧ quickCoverage 0 0 = 0
    ∧ quickOverallPct 0 0 = none := by
  exact ⟨rfl, rfl, rfl, rfl⟩

end ProtoComp
